import Mathlib

/-!
Verification of the Caesar-cryptanalysis program (crypto/caesar.py, crypto/bruteforce.py,
crypto/frequency.py, crypto/scoring.py, bin/crack_caesar.py) against its specification.

Modelling choices for the shallow embedding:
* Python strings are sequences of Unicode code points, modelled as `List ℕ`.
* Python floats are modelled as exact rationals `ℚ`; `round(x, n)` is modelled by
  `pyRound n` (round half to even at `n` decimal places, as Python rounds).
* `str.isalpha`, `str.isupper` and `str.lower` are modelled faithfully for all code
  points up to 255 (ASCII and the Latin-1 supplement); code points above 255 are
  treated as non-alphabetic.  Every theorem below either quantifies only over texts
  inside the faithful range or evaluates concrete texts inside it.
* Machine integers are `ℕ`/`ℤ`; the Python `%` on a positive modulus agrees with
  `Int.emod`, which is what `%` on `ℤ` means in Lean.
-/

/-- Code points of a string literal, used to write concrete Python strings. -/
def codes (s : String) : List ℕ := s.data.map Char.toNat

/-- Python round(x, ndigits): round half to even at ndigits decimal places. -/
def pyRound (ndigits : ℕ) (x : ℚ) : ℚ :=
  ((if x * 10 ^ ndigits - ⌊x * 10 ^ ndigits⌋ = 1 / 2 then
      (if ⌊x * 10 ^ ndigits⌋ % 2 = 0 then ⌊x * 10 ^ ndigits⌋ else ⌊x * 10 ^ ndigits⌋ + 1)
    else round (x * 10 ^ ndigits) : ℤ) : ℚ) / 10 ^ ndigits

/-- Python str.isalpha on one code point, faithful on code points up to 255:
ASCII letters plus the Latin-1 letters 0xAA, 0xB5, 0xBA, 0xC0-0xD6, 0xD8-0xF6,
0xF8-0xFF.  Code points above 255 are modelled as non-alphabetic. -/
def pyIsAlpha (c : ℕ) : Bool :=
  decide ((65 ≤ c ∧ c ≤ 90) ∨ (97 ≤ c ∧ c ≤ 122) ∨ c = 170 ∨ c = 181 ∨ c = 186 ∨
    (192 ≤ c ∧ c ≤ 214) ∨ (216 ≤ c ∧ c ≤ 246) ∨ (248 ≤ c ∧ c ≤ 255))

/-- Python str.isupper on one code point (faithful on code points up to 255). -/
def pyIsUpper (c : ℕ) : Bool :=
  decide ((65 ≤ c ∧ c ≤ 90) ∨ (192 ≤ c ∧ c ≤ 214) ∨ (216 ≤ c ∧ c ≤ 222))

/-- Python str.lower on one code point (faithful on code points up to 255, where
lowering is adding 32 to an uppercase letter). -/
def pyLower (c : ℕ) : ℕ := if pyIsUpper c then c + 32 else c

/-- The per-character transformation of caesar_encrypt (crypto/caesar.py):
if char.isalpha, shift within the 26-letter alphabet of its case, else identity. -/
def caesarShiftChar (k : ℤ) (c : ℕ) : ℕ :=
  if pyIsAlpha c then
    let base : ℕ := if pyIsUpper c then 65 else 97
    (((c : ℤ) - base + k) % 26 + base).toNat
  else c

/-- caesar_encrypt (crypto/caesar.py). -/
def caesar_encrypt (plaintext : List ℕ) (k : ℤ) : List ℕ :=
  plaintext.map (caesarShiftChar k)

/-- caesar_decrypt (crypto/caesar.py): encryption with the negated key. -/
def caesar_decrypt (ciphertext : List ℕ) (k : ℤ) : List ℕ :=
  caesar_encrypt ciphertext (-k)

/-- caesar_bruteforce (crypto/bruteforce.py): all keys 1..25 in order. -/
def caesar_bruteforce (ciphertext : List ℕ) : List (ℕ × List ℕ) :=
  (List.range' 1 25).map fun k => (k, caesar_decrypt ciphertext (k : ℤ))

/-- ASCII letter test, the character class of the regex in tokenize. -/
def isAsciiAlpha (c : ℕ) : Bool := decide ((65 ≤ c ∧ c ≤ 90) ∨ (97 ≤ c ∧ c ≤ 122))

/-- Accumulator loop for tokenize: extracts maximal runs of ASCII letters. -/
def tokenizeGo : List ℕ → List ℕ → List (List ℕ)
  | [], acc => if acc.isEmpty then [] else [acc.reverse]
  | c :: cs, acc =>
    if isAsciiAlpha c then tokenizeGo cs (c :: acc)
    else if acc.isEmpty then tokenizeGo cs [] else acc.reverse :: tokenizeGo cs []

/-- tokenize (crypto/scoring.py): maximal ASCII-letter runs of text.lower(). -/
def tokenize (text : List ℕ) : List (List ℕ) := tokenizeGo (text.map pyLower) []

/-- stopwords_stats (bin/crack_caesar.py): (n_stop, n_total, pct rounded to 2 places),
with pct = 0 when there are no tokens. -/
def stopwords_stats (text : List ℕ) (stopwords : List (List ℕ)) : ℕ × ℕ × ℚ :=
  let words := tokenize text
  let n_total := words.length
  let n_stop := words.countP (fun w => decide (w ∈ stopwords))
  let pct : ℚ := if 0 < n_total then (n_stop : ℚ) / n_total * 100 else 0
  (n_stop, n_total, pyRound 2 pct)

/-- avg_word_length (bin/crack_caesar.py). -/
def avg_word_length (text : List ℕ) : ℚ :=
  let words := tokenize text
  if words.isEmpty then 0
  else pyRound 2 (((words.map List.length).sum : ℚ) / words.length)

/-- alpha_ratio (bin/crack_caesar.py): percentage of alphabetic characters over the
whole text, 0 for the empty text. -/
def alpha_ratio (text : List ℕ) : ℚ :=
  if 0 < text.length then
    pyRound 2 (((text.filter pyIsAlpha).length : ℚ) / text.length * 100)
  else 0

/-- FRENCH_FREQ (crypto/frequency.py), percentages as exact rationals, in dict
insertion order. -/
def FRENCH_FREQ : List (ℕ × ℚ) :=
  [(Char.toNat 'a', 764 / 100), (Char.toNat 'b', 90 / 100), (Char.toNat 'c', 326 / 100),
   (Char.toNat 'd', 367 / 100), (Char.toNat 'e', 1471 / 100), (Char.toNat 'f', 106 / 100),
   (Char.toNat 'g', 87 / 100), (Char.toNat 'h', 74 / 100), (Char.toNat 'i', 753 / 100),
   (Char.toNat 'j', 61 / 100), (Char.toNat 'k', 5 / 100), (Char.toNat 'l', 546 / 100),
   (Char.toNat 'm', 297 / 100), (Char.toNat 'n', 710 / 100), (Char.toNat 'o', 538 / 100),
   (Char.toNat 'p', 302 / 100), (Char.toNat 'q', 136 / 100), (Char.toNat 'r', 655 / 100),
   (Char.toNat 's', 795 / 100), (Char.toNat 't', 724 / 100), (Char.toNat 'u', 631 / 100),
   (Char.toNat 'v', 184 / 100), (Char.toNat 'w', 7 / 100), (Char.toNat 'x', 43 / 100),
   (Char.toNat 'y', 13 / 100), (Char.toNat 'z', 33 / 100)]

/-- ENGLISH_FREQ (crypto/frequency.py). -/
def ENGLISH_FREQ : List (ℕ × ℚ) :=
  [(Char.toNat 'a', 817 / 100), (Char.toNat 'b', 149 / 100), (Char.toNat 'c', 278 / 100),
   (Char.toNat 'd', 425 / 100), (Char.toNat 'e', 1270 / 100), (Char.toNat 'f', 223 / 100),
   (Char.toNat 'g', 202 / 100), (Char.toNat 'h', 609 / 100), (Char.toNat 'i', 697 / 100),
   (Char.toNat 'j', 15 / 100), (Char.toNat 'k', 77 / 100), (Char.toNat 'l', 403 / 100),
   (Char.toNat 'm', 241 / 100), (Char.toNat 'n', 675 / 100), (Char.toNat 'o', 751 / 100),
   (Char.toNat 'p', 193 / 100), (Char.toNat 'q', 10 / 100), (Char.toNat 'r', 599 / 100),
   (Char.toNat 's', 633 / 100), (Char.toNat 't', 906 / 100), (Char.toNat 'u', 276 / 100),
   (Char.toNat 'v', 98 / 100), (Char.toNat 'w', 236 / 100), (Char.toNat 'x', 15 / 100),
   (Char.toNat 'y', 197 / 100), (Char.toNat 'z', 7 / 100)]

/-- The lowercase alphabet, the iteration order of the dict comprehension in
letter_frequency. -/
def lowercaseAlphabet : List ℕ := codes "abcdefghijklmnopqrstuvwxyz"

/-- letter_frequency (crypto/frequency.py): an association list in dict insertion
order; the empty dict when the text has no alphabetic character. -/
def letter_frequency (text : List ℕ) : List (ℕ × ℚ) :=
  let t := (text.filter pyIsAlpha).map pyLower
  let total := t.length
  if total = 0 then []
  else lowercaseAlphabet.map fun l => (l, pyRound 2 ((t.count l : ℚ) / total * 100))

/-- Python dict.get(k, d0) on an association list. -/
def dictGet (d : List (ℕ × ℚ)) (k : ℕ) (d0 : ℚ) : ℚ :=
  match d.find? (fun p => p.1 == k) with
  | some p => p.2
  | none => d0

/-- chi_squared_test (crypto/frequency.py). -/
def chi_squared_test (text : List ℕ) (language : String) : ℚ :=
  let freq_ref := if language = "fr" then FRENCH_FREQ else ENGLISH_FREQ
  let freq_obs := letter_frequency text
  pyRound 2 (freq_ref.foldl
    (fun chi2 p => if 0 < p.2 then chi2 + (dictGet freq_obs p.1 0 - p.2) ^ 2 / p.2 else chi2) 0)

/-- index_of_coincidence (crypto/frequency.py); the sum over Counter values is the
sum over distinct letters of count * (count - 1). -/
def index_of_coincidence (text : List ℕ) : ℚ :=
  let t := (text.filter pyIsAlpha).map pyLower
  let N := t.length
  if N ≤ 1 then 0
  else pyRound 4 (((t.dedup.map fun v => t.count v * (t.count v - 1)).sum : ℚ)
    / ((N * (N - 1) : ℕ) : ℚ))

/-- The per-character transformation of the inner decryption loop of
frequency_attack_vigenere (crypto/frequency.py). -/
def vigenereShiftChar (shift : ℕ) (c : ℕ) : ℕ :=
  if pyIsAlpha c then
    let base : ℕ := if pyIsUpper c then 65 else 97
    (((c : ℤ) - base - shift) % 26 + base).toNat
  else c

/-- The chi-squared value computed for one candidate shift inside
frequency_attack_vigenere. -/
def vigenereChi2 (subtext : List ℕ) (language : String) (shift : ℕ) : ℚ :=
  chi_squared_test (subtext.map (vigenereShiftChar shift)) language

/-- The comparison chi2 < best_chi2, where best_chi2 starts at float inf
(modelled as none). -/
def ltInf (x : ℚ) : Option ℚ → Bool
  | none => true
  | some b => decide (x < b)

/-- The best_shift / best_chi2 accumulation loop of frequency_attack_vigenere. -/
def bestShiftLoop (f : ℕ → ℚ) : List ℕ → ℕ × Option ℚ → ℕ × Option ℚ
  | [], st => st
  | s :: rest, (bs, bc) =>
    if ltInf (f s) bc then bestShiftLoop f rest (s, some (f s))
    else bestShiftLoop f rest (bs, bc)

/-- The shift selected by frequency_attack_vigenere over shifts 0..25. -/
def bestShift (subtext : List ℕ) (language : String) : ℕ :=
  (bestShiftLoop (vigenereChi2 subtext language) (List.range 26) (0, none)).1

/-- frequency_attack_vigenere (crypto/frequency.py): the code point of
chr(ord(a) + best_shift). -/
def frequency_attack_vigenere (subtext : List ℕ) (language : String) : ℕ :=
  97 + bestShift subtext language

/-- Sub-score normalizations of compute_normalized_score (bin/crack_caesar.py). -/
def score_stopwords (pct_stop : ℚ) : ℚ := min (pct_stop / 50) 1

def score_chi2 (chi2 : ℚ) : ℚ := max 0 (1 - chi2 / 200)

def score_ic (ic : ℚ) : ℚ := min (ic / (70 / 1000)) 1

def score_avg_len (avg_len : ℚ) : ℚ := max 0 (1 - |5 - avg_len| / 5)

def score_alpha (alpha_r : ℚ) : ℚ := alpha_r / 100

/-- compute_normalized_score (bin/crack_caesar.py); n_stop is accepted but unused,
exactly as in the source. -/
def compute_normalized_score (n_stop : ℕ) (pct_stop chi2 ic avg_len alpha_r : ℚ) : ℚ :=
  pyRound 2 (40 * score_stopwords pct_stop + 30 * score_chi2 chi2 +
    15 * score_ic ic + 10 * score_avg_len avg_len + 5 * score_alpha alpha_r)

/-- One entry of the results list built by main (bin/crack_caesar.py). -/
structure ScoredResult where
  key : ℕ
  language : String
  plaintext : List ℕ
  n_stop : ℕ
  n_total : ℕ
  pct_stop : ℚ
  chi2 : ℚ
  ic : ℚ
  avg_len : ℚ
  alpha_r : ℚ
  score : ℚ

/-- The per-candidate, per-language evaluation of the analysis loop in main. -/
def analyzeCandidate (key : ℕ) (plaintext : List ℕ) (lang : String)
    (stopwords : List (List ℕ)) : ScoredResult :=
  let s := stopwords_stats plaintext stopwords
  let chi2 := chi_squared_test plaintext lang
  let ic := index_of_coincidence plaintext
  let avg_len := avg_word_length plaintext
  let alpha_r := alpha_ratio plaintext
  { key := key, language := lang, plaintext := plaintext, n_stop := s.1, n_total := s.2.1,
    pct_stop := s.2.2, chi2 := chi2, ic := ic, avg_len := avg_len, alpha_r := alpha_r,
    score := compute_normalized_score s.1 s.2.2 chi2 ic avg_len alpha_r }

/-- The results list of main: for each bruteforce candidate in order, the fr
evaluation then the en evaluation. -/
def mainResults (ciphertext : List ℕ) (stop_fr stop_en : List (List ℕ)) : List ScoredResult :=
  (caesar_bruteforce ciphertext).flatMap fun kp =>
    [analyzeCandidate kp.1 kp.2 "fr" stop_fr, analyzeCandidate kp.1 kp.2 "en" stop_en]

/-- results_sorted of main: Python sorted with key score and reverse=True is a
stable sort descending by score; insertionSort on the reflexive descending-score
relation is such a stable sort, and all stable sorts of a list under the same key
agree. -/
def results_sorted (ciphertext : List ℕ) (stop_fr stop_en : List (List ℕ)) :
    List ScoredResult :=
  List.insertionSort (fun a b => b.score ≤ a.score) (mainResults ciphertext stop_fr stop_en)

/-! ### Helper lemmas -/

/-- Rounding a value of a bounded range at d decimal places stays within the
integer bounds scaled down by 10 ^ d. -/
lemma pyRound_bounds (d : ℕ) (x : ℚ) (a b : ℤ) (ha : (a : ℚ) ≤ x * 10 ^ d)
    (hb : x * 10 ^ d ≤ (b : ℚ)) :
    (a : ℚ) / 10 ^ d ≤ pyRound d x ∧ pyRound d x ≤ (b : ℚ) / 10 ^ d := by
  have hpow : (0 : ℚ) < 10 ^ d := by positivity
  have hn : ∃ n : ℤ, pyRound d x = (n : ℚ) / 10 ^ d ∧ a ≤ n ∧ n ≤ b := by
    unfold pyRound
    by_cases htie : x * 10 ^ d - ⌊x * 10 ^ d⌋ = 1 / 2
    · have hfl : (⌊x * 10 ^ d⌋ : ℚ) = x * 10 ^ d - 1 / 2 := by linarith
      have hlow : a ≤ ⌊x * 10 ^ d⌋ := Int.le_floor.mpr ha
      have hup : ⌊x * 10 ^ d⌋ < b := by
        have : (⌊x * 10 ^ d⌋ : ℚ) < (b : ℚ) := by rw [hfl]; linarith
        exact_mod_cast this
      by_cases hev : ⌊x * 10 ^ d⌋ % 2 = 0
      · exact ⟨⌊x * 10 ^ d⌋, by rw [if_pos htie, if_pos hev], hlow, le_of_lt hup⟩
      · exact ⟨⌊x * 10 ^ d⌋ + 1, by rw [if_pos htie, if_neg hev], by omega, by omega⟩
    · refine ⟨round (x * 10 ^ d), by rw [if_neg htie], ?_, ?_⟩
      · rw [round_eq]
        exact Int.le_floor.mpr (by push_cast; linarith)
      · rw [round_eq]
        by_contra hcon
        push_neg at hcon
        have h2 : b + 1 ≤ ⌊x * 10 ^ d + 1 / 2⌋ := by omega
        have h3 : ((b + 1 : ℤ) : ℚ) ≤ x * 10 ^ d + 1 / 2 := le_trans (by exact_mod_cast Int.cast_le.mpr h2) (Int.floor_le _)
        push_cast at h3
        linarith
  obtain ⟨n, he, h1, h2⟩ := hn
  rw [he]
  constructor
  · rw [div_le_div_iff₀ hpow hpow]
    exact mul_le_mul_of_nonneg_right (by exact_mod_cast h1) (le_of_lt hpow)
  · rw [div_le_div_iff₀ hpow hpow]
    exact mul_le_mul_of_nonneg_right (by exact_mod_cast h2) (le_of_lt hpow)

/-- pyRound of 0 is 0. -/
lemma pyRound_zero (d : ℕ) : pyRound d 0 = 0 := by
  simp [pyRound]

/-- On ASCII code points, pyIsAlpha means ASCII letter. -/
lemma pyIsAlpha_ascii (c : ℕ) (hc : c ≤ 127) :
    pyIsAlpha c = true ↔ ((65 ≤ c ∧ c ≤ 90) ∨ (97 ≤ c ∧ c ≤ 122)) := by
  simp only [pyIsAlpha, decide_eq_true_eq]
  omega

/-- Round trip of the per-character Caesar shift on ASCII code points. -/
lemma caesarShiftChar_roundtrip (k : ℤ) (c : ℕ) (hc : c ≤ 127) :
    caesarShiftChar (-k) (caesarShiftChar k c) = c := by
  by_cases hA : pyIsAlpha c = true
  · rcases (pyIsAlpha_ascii c hc).mp hA with ⟨h1, h2⟩ | ⟨h1, h2⟩
    · have hU : pyIsUpper c = true := by
        simp only [pyIsUpper, decide_eq_true_eq]; omega
      have e1 : caesarShiftChar k c = (((c : ℤ) - 65 + k) % 26 + 65).toNat := by
        simp [caesarShiftChar, hA, hU]
      set o : ℕ := (((c : ℤ) - 65 + k) % 26 + 65).toNat with ho
      have hob : 65 ≤ o ∧ o ≤ 90 := by omega
      have hAo : pyIsAlpha o = true := by
        simp only [pyIsAlpha, decide_eq_true_eq]; omega
      have hUo : pyIsUpper o = true := by
        simp only [pyIsUpper, decide_eq_true_eq]; omega
      have e2 : caesarShiftChar (-k) o = (((o : ℤ) - 65 + -k) % 26 + 65).toNat := by
        simp [caesarShiftChar, hAo, hUo]
      rw [e1, e2]
      omega
    · have hU : pyIsUpper c = false := by
        simp only [pyIsUpper]; simp only [decide_eq_false_iff_not]; omega
      have e1 : caesarShiftChar k c = (((c : ℤ) - 97 + k) % 26 + 97).toNat := by
        simp [caesarShiftChar, hA, hU]
      set o : ℕ := (((c : ℤ) - 97 + k) % 26 + 97).toNat with ho
      have hob : 97 ≤ o ∧ o ≤ 122 := by omega
      have hAo : pyIsAlpha o = true := by
        simp only [pyIsAlpha, decide_eq_true_eq]; omega
      have hUo : pyIsUpper o = false := by
        simp only [pyIsUpper]; simp only [decide_eq_false_iff_not]; omega
      have e2 : caesarShiftChar (-k) o = (((o : ℤ) - 97 + -k) % 26 + 97).toNat := by
        simp [caesarShiftChar, hAo, hUo]
      rw [e1, e2]
      omega
  · have e1 : caesarShiftChar k c = c := by simp [caesarShiftChar, hA]
    rw [e1]
    simp [caesarShiftChar, hA]

/-- Decrypting an encryption recovers any all-ASCII text, for every integer key. -/
lemma roundtrip_list (t : List ℕ) (ht : ∀ c ∈ t, c ≤ 127) (k : ℤ) :
    caesar_decrypt (caesar_encrypt t k) k = t := by
  unfold caesar_decrypt caesar_encrypt
  rw [List.map_map]
  have h : ∀ c ∈ t, (caesarShiftChar (-k) ∘ caesarShiftChar k) c = id c := fun c hc =>
    caesarShiftChar_roundtrip k c (ht c hc)
  rw [List.map_congr_left h, List.map_id]

/-- The per-character Caesar shift only depends on the key modulo 26. -/
lemma caesarShiftChar_mod (k : ℤ) (c : ℕ) :
    caesarShiftChar k c = caesarShiftChar (k % 26) c := by
  unfold caesarShiftChar
  by_cases hA : pyIsAlpha c = true
  · simp only [hA, if_true]
    by_cases hU : pyIsUpper c = true <;> simp only [hU, if_true, if_false] <;> omega
  · simp [hA]

/-- The k-th bruteforce entry is (k, caesar_decrypt c k). -/
lemma bruteforce_getElem (c : List ℕ) (k : ℕ) (h1 : 1 ≤ k) (h2 : k ≤ 25) :
    (caesar_bruteforce c)[k - 1]? = some (k, caesar_decrypt c (k : ℤ)) := by
  unfold caesar_bruteforce
  rw [List.getElem?_map, @List.getElem?_range' 1 1 (k - 1) 25 (by omega)]
  have he : 1 + 1 * (k - 1) = k := by omega
  rw [he]
  rfl

/-! ### Claims C1, C2, C8, C9 -/

/-- Claim C2 counterexample: for the one-character text consisting of the
non-ASCII letter with code point 233 (Latin small letter e with acute), the
decryption of its shift-1 encryption is not the original text, so the
round-trip property fails on non-ASCII input. -/
theorem claim2_counterexample :
    caesar_decrypt (caesar_encrypt (codes "é") 1) 1 ≠ codes "é" := by decide

/-- Claim C2 (amended): for every text all of whose characters are ASCII code
points and every shift k in 1..25, caesar_decrypt (caesar_encrypt t k) k = t. -/
theorem claim2_roundtrip_amended (t : List ℕ) (ht : ∀ c ∈ t, c ≤ 127) (k : ℤ)
    (hk1 : 1 ≤ k) (hk2 : k ≤ 25) :
    caesar_decrypt (caesar_encrypt t k) k = t :=
  roundtrip_list t ht k

/-- Claim C2 witness: the amended round trip at a concrete ASCII text and key 5. -/
theorem claim2_witness :
    caesar_decrypt (caesar_encrypt (codes "Hello, World! 123") 5) 5 = codes "Hello, World! 123" :=
  claim2_roundtrip_amended (codes "Hello, World! 123") (by decide) 5 (by decide) (by decide)

/-- Claim C1 counterexample: the entry of caesar_bruteforce at shift 1 does not
reproduce the original plaintext when the plaintext contains the non-ASCII
letter 233, refuting the unconditional claim. -/
theorem claim1_counterexample :
    (caesar_bruteforce (caesar_encrypt (codes "é") 1))[0]? ≠ some (1, codes "é") := by decide

/-- Claim C1 (amended): caesar_bruteforce always returns exactly 25 entries, the
k-th entry being (k, caesar_decrypt c k) for k = 1..25 in ascending order; and
whenever c = caesar_encrypt p s for a shift s in 1..25 and an all-ASCII
plaintext p, the entry with shift s has plaintext p. -/
theorem claim1_bruteforce_amended (c : List ℕ) :
    (caesar_bruteforce c).length = 25 ∧
    (∀ k : ℕ, 1 ≤ k → k ≤ 25 →
      (caesar_bruteforce c)[k - 1]? = some (k, caesar_decrypt c (k : ℤ))) ∧
    (∀ (p : List ℕ) (s : ℕ), (∀ ch ∈ p, ch ≤ 127) → 1 ≤ s → s ≤ 25 →
      (caesar_bruteforce (caesar_encrypt p (s : ℤ)))[s - 1]? = some (s, p)) := by
  refine ⟨by simp [caesar_bruteforce], fun k h1 h2 => bruteforce_getElem c k h1 h2, ?_⟩
  intro p s hp h1 h2
  rw [bruteforce_getElem (caesar_encrypt p (s : ℤ)) s h1 h2, roundtrip_list p hp (s : ℤ)]

/-- Claim C1 witness: the amended statement at concrete inputs. -/
theorem claim1_witness :
    (caesar_bruteforce (codes "KHOOR")).length = 25 ∧
    (caesar_bruteforce (codes "KHOOR"))[2]? = some (3, caesar_decrypt (codes "KHOOR") 3) ∧
    (caesar_bruteforce (caesar_encrypt (codes "HELLO") 7))[6]? = some (7, codes "HELLO") := by
  have h := claim1_bruteforce_amended (codes "KHOOR")
  exact ⟨h.1, h.2.1 3 (by norm_num) (by norm_num),
    (claim1_bruteforce_amended (codes "HELLO")).2.2 (codes "HELLO") 7 (by decide) (by norm_num)
      (by norm_num)⟩

/-- Claim C8: caesar_encrypt only depends on the key modulo 26, for every text
(ASCII or not) and every integer key; in particular key 29 behaves as key 3. -/
theorem claim8_periodicity (t : List ℕ) (k : ℤ) :
    caesar_encrypt t k = caesar_encrypt t (k % 26) ∧
    caesar_encrypt t 29 = caesar_encrypt t 3 := by
  have hgen : ∀ j : ℤ, caesar_encrypt t j = caesar_encrypt t (j % 26) := fun j =>
    List.map_congr_left fun c _ => caesarShiftChar_mod j c
  refine ⟨hgen k, ?_⟩
  have h := hgen 29
  norm_num at h
  exact h

/-- Claim C9: caesar_encrypt maps each input character to exactly one output
character, so output length equals input length for every text and key. -/
theorem claim9_length (t : List ℕ) (k : ℤ) :
    (caesar_encrypt t k).length = t.length := by
  simp [caesar_encrypt]

/-! ### Claim C5: zero-division guards -/

/-- Claim C5: the zero-division guards hold: stopwords_stats of the empty text is
(0, 0, 0) for every stopword set; token count zero forces pct zero;
index_of_coincidence is 0 whenever the text has at most one alphabetic
character; and alpha_ratio of the empty text is 0.  Exception freedom is
inherent: every modelled operation is a total function. -/
theorem claim5_guards :
    (∀ S : List (List ℕ), stopwords_stats [] S = (0, 0, 0)) ∧
    (∀ (t : List ℕ) (S : List (List ℕ)),
      (stopwords_stats t S).2.1 = 0 → (stopwords_stats t S).2.2 = 0) ∧
    (∀ t : List ℕ, (t.filter pyIsAlpha).length ≤ 1 → index_of_coincidence t = 0) ∧
    alpha_ratio [] = 0 := by
  refine ⟨?_, ?_, ?_, rfl⟩
  · intro S
    simp only [stopwords_stats, tokenize, List.map_nil]
    norm_num [tokenizeGo, pyRound_zero]
  · intro t S h
    simp only [stopwords_stats] at h ⊢
    rw [if_neg (by omega)]
    exact pyRound_zero 2
  · intro t h
    have hlen : ((t.filter pyIsAlpha).map pyLower).length ≤ 1 := by
      simpa using h
    simp only [index_of_coincidence]
    rw [if_pos hlen]

/-- Claim C5 witness: the guards applied at concrete inputs. -/
theorem claim5_witness :
    stopwords_stats [] [] = (0, 0, 0) ∧
    (stopwords_stats (codes "...") []).2.2 = 0 ∧
    index_of_coincidence (codes "a!") = 0 ∧
    alpha_ratio [] = 0 :=
  ⟨claim5_guards.1 [], claim5_guards.2.1 (codes "...") [] (by decide),
   claim5_guards.2.2.1 (codes "a!") (by decide), claim5_guards.2.2.2⟩

/-! ### Claim C3: score normalization and boundedness -/

/-- Claim C3: for feature inputs in their valid ranges, compute_normalized_score
is the weighted sum of the five normalized sub-scores rounded to 2 decimals,
each sub-score lies in the unit interval, and the result lies in 0..100. -/
theorem claim3_score_bounds (n_stop : ℕ) (pct_stop chi2 ic avg_len alpha_r : ℚ)
    (h1 : 0 ≤ pct_stop) (h2 : pct_stop ≤ 100) (h3 : 0 ≤ chi2) (h4 : 0 ≤ ic)
    (h5 : ic ≤ 1 / 10) (h6 : 0 ≤ avg_len) (h7 : 0 ≤ alpha_r) (h8 : alpha_r ≤ 100) :
    compute_normalized_score n_stop pct_stop chi2 ic avg_len alpha_r =
      pyRound 2 (40 * min (pct_stop / 50) 1 + 30 * max 0 (1 - chi2 / 200) +
        15 * min (ic / (70 / 1000)) 1 + 10 * max 0 (1 - |5 - avg_len| / 5) +
        5 * (alpha_r / 100)) ∧
    (0 ≤ score_stopwords pct_stop ∧ score_stopwords pct_stop ≤ 1) ∧
    (0 ≤ score_chi2 chi2 ∧ score_chi2 chi2 ≤ 1) ∧
    (0 ≤ score_ic ic ∧ score_ic ic ≤ 1) ∧
    (0 ≤ score_avg_len avg_len ∧ score_avg_len avg_len ≤ 1) ∧
    (0 ≤ score_alpha alpha_r ∧ score_alpha alpha_r ≤ 1) ∧
    0 ≤ compute_normalized_score n_stop pct_stop chi2 ic avg_len alpha_r ∧
    compute_normalized_score n_stop pct_stop chi2 ic avg_len alpha_r ≤ 100 := by
  have s1 : 0 ≤ score_stopwords pct_stop ∧ score_stopwords pct_stop ≤ 1 :=
    ⟨le_min (by positivity) (by norm_num), min_le_right _ _⟩
  have s2 : 0 ≤ score_chi2 chi2 ∧ score_chi2 chi2 ≤ 1 :=
    ⟨le_max_left 0 _, max_le (by norm_num) (by nlinarith)⟩
  have s2' : score_chi2 chi2 ≤ 1 := s2.2
  have s3 : 0 ≤ score_ic ic ∧ score_ic ic ≤ 1 :=
    ⟨le_min (by positivity) (by norm_num), min_le_right _ _⟩
  have habs : 0 ≤ |5 - avg_len| := abs_nonneg _
  have s4 : 0 ≤ score_avg_len avg_len ∧ score_avg_len avg_len ≤ 1 :=
    ⟨le_max_left 0 _, max_le (by norm_num) (by nlinarith)⟩
  have s5 : 0 ≤ score_alpha alpha_r ∧ score_alpha alpha_r ≤ 1 :=
    ⟨by unfold score_alpha; positivity, by unfold score_alpha; linarith⟩
  set w : ℚ := 40 * score_stopwords pct_stop + 30 * score_chi2 chi2 +
      15 * score_ic ic + 10 * score_avg_len avg_len + 5 * score_alpha alpha_r with hw
  have hw0 : 0 ≤ w := by
    rw [hw]
    have := s1.1; have := s2.1; have := s3.1; have := s4.1; have := s5.1
    linarith
  have hw100 : w ≤ 100 := by
    rw [hw]
    have := s1.2; have := s2.2; have := s3.2; have := s4.2; have := s5.2
    linarith
  have hb := pyRound_bounds 2 w 0 10000 (by push_cast; nlinarith) (by push_cast; nlinarith)
  have hlo : 0 ≤ pyRound 2 w := by
    have := hb.1
    norm_num at this
    linarith
  have hhi : pyRound 2 w ≤ 100 := by
    have := hb.2
    norm_num at this
    linarith
  exact ⟨rfl, s1, s2, s3, s4, s5, hlo, hhi⟩

/-- Claim C3 witness: concrete in-range features; the score is within 0..100. -/
theorem claim3_witness :
    0 ≤ compute_normalized_score 3 60 30 (7 / 100) 5 90 ∧
    compute_normalized_score 3 60 30 (7 / 100) 5 90 ≤ 100 := by
  have h := claim3_score_bounds 3 60 30 (7 / 100) 5 90 (by norm_num) (by norm_num)
    (by norm_num) (by norm_num) (by norm_num) (by norm_num) (by norm_num) (by norm_num)
  exact ⟨h.2.2.2.2.2.2.1, h.2.2.2.2.2.2.2⟩

/-! ### Claim C7: letter_frequency -/

/-- Claim C7 counterexample: on a letterless text the code returns the empty
dict, not a map whose keys are the 26 lowercase letters. -/
theorem claim7_counterexample :
    letter_frequency (codes "123") = [] ∧
    (letter_frequency (codes "123")).map Prod.fst ≠ lowercaseAlphabet := by
  constructor
  · decide
  · decide

/-- Claim C7 (amended): for a text with no alphabetic characters,
letter_frequency returns the empty dict (which reads as zero for every letter
under the default-0 lookup); for a text with at least one alphabetic character
its keys are exactly the 26 lowercase letters in order and each value is the
rounded observed percentage of that letter among alphabetic characters. -/
theorem claim7_letter_frequency_amended :
    (∀ t : List ℕ, (t.filter pyIsAlpha).length = 0 → letter_frequency t = []) ∧
    (∀ t : List ℕ, (t.filter pyIsAlpha).length ≠ 0 →
      (letter_frequency t).map Prod.fst = lowercaseAlphabet ∧
      ∀ p ∈ letter_frequency t, p.2 =
        pyRound 2 (((((t.filter pyIsAlpha).map pyLower).count p.1 : ℚ) /
          (((t.filter pyIsAlpha).map pyLower).length : ℚ)) * 100)) := by
  constructor
  · intro t h
    simp only [letter_frequency]
    rw [if_pos (by simpa using h)]
  · intro t h
    simp only [letter_frequency]
    rw [if_neg (by simpa using h)]
    constructor
    · rw [List.map_map]
      simp [Function.comp_def]
    · intro p hp
      rw [List.mem_map] at hp
      obtain ⟨l, _, he⟩ := hp
      rw [← he]

/-- Claim C7 witness: the amended statement at concrete texts. -/
theorem claim7_witness :
    letter_frequency (codes "?!") = [] ∧
    (letter_frequency (codes "ab")).map Prod.fst = lowercaseAlphabet :=
  ⟨claim7_letter_frequency_amended.1 (codes "?!") (by decide),
   (claim7_letter_frequency_amended.2 (codes "ab") (by decide)).1⟩

/-! ### Claim C6: end-to-end scenario -/

/-- Claim C6 counterexample: the shift-7 encryption of "The quick brown fox" is
not "Aol xburr iyvdu mve" (the word quick encrypts to xbpjr, not xburr). -/
theorem claim6_counterexample :
    caesar_encrypt (codes "The quick brown fox") 7 ≠ codes "Aol xburr iyvdu mve" := by
  decide

/-- Claim C6 (amended): the shift-7 encryption of "The quick brown fox" is
"Aol xbpjr iyvdu mve"; caesar_bruteforce on that ciphertext has, at shift 7
(index 6), the entry whose plaintext is "The quick brown fox"; and the stopword
statistics of that plaintext against any stopword set containing "the" give a
stopword percentage greater than 0. -/
theorem claim6_scenario_amended (S : List (List ℕ)) (hS : codes "the" ∈ S) :
    caesar_encrypt (codes "The quick brown fox") 7 = codes "Aol xbpjr iyvdu mve" ∧
    (caesar_bruteforce (codes "Aol xbpjr iyvdu mve"))[6]? =
      some (7, codes "The quick brown fox") ∧
    0 < (stopwords_stats (codes "The quick brown fox") S).2.2 := by
  refine ⟨by decide, by decide, ?_⟩
  have htok : tokenize (codes "The quick brown fox") =
      [codes "the", codes "quick", codes "brown", codes "fox"] := by decide
  have hs : stopwords_stats (codes "The quick brown fox") S =
      (([codes "the", codes "quick", codes "brown", codes "fox"].countP
          fun w => decide (w ∈ S)),
        4,
        pyRound 2 ((([codes "the", codes "quick", codes "brown", codes "fox"].countP
          fun w => decide (w ∈ S) : ℕ) : ℚ) / 4 * 100)) := by
    simp only [stopwords_stats, htok]
    norm_num
  rw [hs]
  set n : ℕ := [codes "the", codes "quick", codes "brown", codes "fox"].countP
      fun w => decide (w ∈ S) with hn
  have h1 : 1 ≤ n := by
    rw [hn]
    have : 0 < [codes "the", codes "quick", codes "brown", codes "fox"].countP
        fun w => decide (w ∈ S) := by
      rw [List.countP_pos_iff]
      exact ⟨codes "the", by simp, by simpa using hS⟩
    omega
  have h4 : n ≤ 4 := by
    rw [hn]
    exact List.countP_le_length _
  have hq1 : (1 : ℚ) ≤ (n : ℚ) := by exact_mod_cast h1
  have hq4 : (n : ℚ) ≤ 4 := by exact_mod_cast h4
  have hb := pyRound_bounds 2 ((n : ℚ) / 4 * 100) 2500 10000
    (by push_cast; nlinarith) (by push_cast; nlinarith)
  have := hb.1
  norm_num at this
  simp only
  linarith

/-- Claim C6 witness: the amended scenario with the stopword set containing
exactly "the". -/
theorem claim6_witness :
    caesar_encrypt (codes "The quick brown fox") 7 = codes "Aol xbpjr iyvdu mve" ∧
    0 < (stopwords_stats (codes "The quick brown fox") [codes "the"]).2.2 := by
  have h := claim6_scenario_amended [codes "the"] (by decide)
  exact ⟨h.1, h.2.2⟩

/-! ### Claim C10: frequency_attack_vigenere -/

/-- The accumulation loop keeps the first strict minimizer: processing a
strictly increasing list of candidate shifts all larger than the current best
shift, starting from best value f bs, yields the earliest minimizer of f over
bs and the list. -/
lemma bestShiftLoop_spec (f : ℕ → ℚ) :
    ∀ (l : List ℕ) (bs : ℕ), l.Pairwise (fun a b => a < b) → (∀ x ∈ l, bs < x) →
    ∀ rs rc, bestShiftLoop f l (bs, some (f bs)) = (rs, rc) →
      rc = some (f rs) ∧ (rs = bs ∨ rs ∈ l) ∧ f rs ≤ f bs ∧
      (∀ x ∈ l, f rs ≤ f x) ∧ (rs ≠ bs → f rs < f bs) ∧
      (∀ x ∈ l, x < rs → f rs < f x) := by
  intro l
  induction l with
  | nil =>
    intro bs _ _ rs rc heq
    simp only [bestShiftLoop, Prod.mk.injEq] at heq
    obtain ⟨h1, h2⟩ := heq
    subst h1
    exact ⟨h2.symm, Or.inl rfl, le_refl _, by simp, fun hne => absurd rfl hne, by simp⟩
  | cons s rest ih =>
    intro bs hpw hgt rs rc heq
    have hpw' : rest.Pairwise (fun a b => a < b) := hpw.tail
    have hsrest : ∀ x ∈ rest, s < x := fun x hx => List.rel_of_pairwise_cons hpw hx
    have hbs : bs < s := hgt s (by simp)
    by_cases hlt : f s < f bs
    · have hstep : bestShiftLoop f (s :: rest) (bs, some (f bs)) =
          bestShiftLoop f rest (s, some (f s)) := by
        simp [bestShiftLoop, ltInf, hlt]
      rw [hstep] at heq
      obtain ⟨c1, c2, c3, c4, c5, c6⟩ := ih s hpw' hsrest rs rc heq
      have hrs_gt : bs < rs := by
        rcases c2 with h | h
        · omega
        · exact lt_trans hbs (hsrest rs h)
      refine ⟨c1, Or.inr ?_, le_of_lt (lt_of_le_of_lt c3 hlt), ?_, fun _ => lt_of_le_of_lt c3 hlt, ?_⟩
      · rcases c2 with h | h
        · simp [h]
        · simp [h]
      · intro x hx
        rcases List.mem_cons.mp hx with h | h
        · subst h; exact c3
        · exact c4 x h
      · intro x hx hxr
        rcases List.mem_cons.mp hx with h | h
        · subst h
          exact c5 (by omega)
        · exact c6 x h hxr
    · have hge : f bs ≤ f s := not_lt.mp hlt
      have hstep : bestShiftLoop f (s :: rest) (bs, some (f bs)) =
          bestShiftLoop f rest (bs, some (f bs)) := by
        simp [bestShiftLoop, ltInf, hlt]
      rw [hstep] at heq
      obtain ⟨c1, c2, c3, c4, c5, c6⟩ := ih bs hpw' (fun x hx => hgt x (by simp [hx])) rs rc heq
      refine ⟨c1, ?_, c3, ?_, c5, ?_⟩
      · rcases c2 with h | h
        · exact Or.inl h
        · exact Or.inr (by simp [h])
      · intro x hx
        rcases List.mem_cons.mp hx with h | h
        · subst h; exact le_trans c3 hge
        · exact c4 x h
      · intro x hx hxr
        rcases List.mem_cons.mp hx with h | h
        · subst h
          have hne : rs ≠ bs := by omega
          exact lt_of_lt_of_le (c5 hne) hge
        · exact c6 x h hxr

/-- Claim C10: frequency_attack_vigenere returns the code point of a lowercase
letter between a and z, namely 97 + s where s is the smallest shift in 0..25
whose shifted decryption of the subtext has the minimal chi-squared statistic
for the given language (the strict-less-than update keeps the first minimizer). -/
theorem claim10_vigenere_spec (subtext : List ℕ) (language : String) :
    frequency_attack_vigenere subtext language = 97 + bestShift subtext language ∧
    97 ≤ frequency_attack_vigenere subtext language ∧
    frequency_attack_vigenere subtext language ≤ 122 ∧
    (∀ j, j < 26 → vigenereChi2 subtext language (bestShift subtext language) ≤
      vigenereChi2 subtext language j) ∧
    (∀ j, j < bestShift subtext language →
      vigenereChi2 subtext language (bestShift subtext language) <
        vigenereChi2 subtext language j) := by
  set f := vigenereChi2 subtext language with hf
  have hrange : List.range 26 = 0 :: List.range' 1 25 := by decide
  have hstep : bestShiftLoop f (List.range 26) (0, none) =
      bestShiftLoop f (List.range' 1 25) (0, some (f 0)) := by
    rw [hrange]
    simp [bestShiftLoop, ltInf]
  have hpair : (List.range' 1 25).Pairwise (fun a b => a < b) :=
    List.pairwise_lt_range' 1 25
  have hgt : ∀ x ∈ List.range' 1 25, 0 < x := by decide
  obtain ⟨c1, c2, c3, c4, c5, c6⟩ := bestShiftLoop_spec f (List.range' 1 25) 0 hpair hgt
    (bestShiftLoop f (List.range' 1 25) (0, some (f 0))).1
    (bestShiftLoop f (List.range' 1 25) (0, some (f 0))).2 rfl
  have hr25 : (bestShiftLoop f (List.range' 1 25) (0, some (f 0))).1 ≤ 25 := by
    rcases c2 with h | h
    · omega
    · have := List.mem_range'_1.mp h
      omega
  have hbs : bestShift subtext language =
      (bestShiftLoop f (List.range' 1 25) (0, some (f 0))).1 := by
    rw [bestShift, ← hf, hstep]
  have hle25 : bestShift subtext language ≤ 25 := by rw [hbs]; exact hr25
  refine ⟨rfl, by simp only [frequency_attack_vigenere]; omega,
    by simp only [frequency_attack_vigenere]; omega, ?_, ?_⟩
  · intro j hj
    rw [hbs]
    by_cases h0 : j = 0
    · subst h0
      exact c3
    · exact c4 j (List.mem_range'_1.mpr ⟨by omega, by omega⟩)
  · intro j hj
    rw [hbs] at hj ⊢
    by_cases h0 : j = 0
    · subst h0
      exact c5 (by omega)
    · exact c6 j (List.mem_range'_1.mpr ⟨by omega, by omega⟩) hj

/-- Claim C10 witness: the minimality statement applied at a concrete subtext
and language, instantiated at shift 0. -/
theorem claim10_witness :
    97 ≤ frequency_attack_vigenere (codes "khoor zruog") "en" ∧
    frequency_attack_vigenere (codes "khoor zruog") "en" ≤ 122 ∧
    vigenereChi2 (codes "khoor zruog") "en" (bestShift (codes "khoor zruog") "en") ≤
      vigenereChi2 (codes "khoor zruog") "en" 0 := by
  have h := claim10_vigenere_spec (codes "khoor zruog") "en"
  exact ⟨h.2.1, h.2.2.1, h.2.2.2.1 0 (by norm_num)⟩

/-! ### Claim C4: tie-break stability of the descending sort -/

/-- The enumeration order of the analysis loop: lower shift first, and at equal
shift the fr evaluation before the en evaluation. -/
def enumLt (a b : ScoredResult) : Prop :=
  a.key < b.key ∨ (a.key = b.key ∧ a.language = "fr" ∧ b.language = "en")

/-- Inserting an element that enumerates before every element of a list sorted
by descending score refined by enumeration order keeps the list sorted by that
lexicographic order. -/
lemma orderedInsert_pairwise_lex {α : Type} (score : α → ℚ) (e : α → α → Prop) (x : α) :
    ∀ l : List α, (∀ z ∈ l, e x z) →
    l.Pairwise (fun a b => score b < score a ∨ (score a = score b ∧ e a b)) →
    (List.orderedInsert (fun a b => score b ≤ score a) x l).Pairwise
      (fun a b => score b < score a ∨ (score a = score b ∧ e a b)) := by
  intro l
  induction l with
  | nil =>
    intro _ _
    simp [List.orderedInsert]
  | cons y ys ih =>
    intro hx hl
    by_cases hc : score y ≤ score x
    · rw [List.orderedInsert, if_pos hc]
      refine List.Pairwise.cons ?_ hl
      intro z hz
      have hsz : score z ≤ score y := by
        rcases List.mem_cons.mp hz with h | h
        · subst h
          exact le_refl _
        · rcases List.rel_of_pairwise_cons hl h with h' | h'
          · exact le_of_lt h'
          · exact le_of_eq h'.1.symm
      rcases lt_or_eq_of_le (le_trans hsz hc) with h | h
      · exact Or.inl h
      · exact Or.inr ⟨h.symm, hx z hz⟩
    · rw [List.orderedInsert, if_neg hc]
      have hxy : score x < score y := not_le.mp hc
      refine List.Pairwise.cons ?_ (ih (fun z hz => hx z (by simp [hz])) hl.tail)
      intro z hz
      rcases (List.mem_orderedInsert _).mp hz with h | h
      · subst h
        exact Or.inl hxy
      · exact List.rel_of_pairwise_cons hl h

/-- The insertion sort with the reflexive descending-score relation is stable:
on a list enumerated by e, the output is sorted by descending score with ties
in enumeration order. -/
lemma insertionSort_pairwise_lex {α : Type} (score : α → ℚ) (e : α → α → Prop) :
    ∀ l : List α, l.Pairwise e →
    (List.insertionSort (fun a b => score b ≤ score a) l).Pairwise
      (fun a b => score b < score a ∨ (score a = score b ∧ e a b)) := by
  intro l
  induction l with
  | nil =>
    intro _
    simp [List.insertionSort]
  | cons x xs ih =>
    intro hl
    have hx : ∀ z ∈ List.insertionSort (fun a b => score b ≤ score a) xs, e x z := by
      intro z hz
      have hzxs : z ∈ xs := (List.perm_insertionSort _ xs).mem_iff.mp hz
      exact List.rel_of_pairwise_cons hl hzxs
    simpa [List.insertionSort] using
      orderedInsert_pairwise_lex score e x _ hx (ih hl.tail)

/-- Concatenating per-key chunks in strictly increasing key order yields a list
pairwise ordered by the enumeration order. -/
lemma pairwise_flatMap_enumLt (g : ℕ × List ℕ → List ScoredResult)
    (hchunk : ∀ kp, (g kp).Pairwise enumLt)
    (hkey : ∀ kp r, r ∈ g kp → r.key = kp.1) :
    ∀ cands : List (ℕ × List ℕ), cands.Pairwise (fun a b => a.1 < b.1) →
      (cands.flatMap g).Pairwise enumLt := by
  intro cands
  induction cands with
  | nil =>
    intro _
    simp
  | cons kp rest ih =>
    intro hpw
    rw [List.flatMap_cons, List.pairwise_append]
    refine ⟨hchunk kp, ih hpw.tail, ?_⟩
    intro a ha b hb
    obtain ⟨kp', hkp', hbmem⟩ := List.mem_flatMap.mp hb
    have h1 : a.key = kp.1 := hkey kp a ha
    have h2 : b.key = kp'.1 := hkey kp' b hbmem
    have h3 : kp.1 < kp'.1 := List.rel_of_pairwise_cons hpw hkp'
    exact Or.inl (by omega)

/-- The results list of main is produced in enumeration order. -/
lemma mainResults_pairwise (c : List ℕ) (sfr sen : List (List ℕ)) :
    (mainResults c sfr sen).Pairwise enumLt := by
  unfold mainResults
  apply pairwise_flatMap_enumLt
  · intro kp
    constructor
    · intro z hz
      rw [List.mem_singleton] at hz
      subst hz
      exact Or.inr ⟨rfl, rfl, rfl⟩
    · exact List.pairwise_singleton _ _
  · intro kp r hr
    rcases List.mem_cons.mp hr with h | h
    · subst h
      rfl
    · rw [List.mem_singleton] at h
      subst h
      rfl
  · unfold caesar_bruteforce
    rw [List.pairwise_map]
    exact List.pairwise_lt_range' 1 25

/-- Claim C4: main produces 50 = 25 x 2 results, and the stable descending
sort keeps equal-score results in enumeration order: lower shift first, and at
equal shift the fr result before the en result. -/
theorem claim4_tiebreak (c : List ℕ) (sfr sen : List (List ℕ)) :
    (mainResults c sfr sen).length = 50 ∧
    (results_sorted c sfr sen).Pairwise (fun a b => a.score = b.score →
      a.key < b.key ∨ (a.key = b.key ∧ a.language = "fr" ∧ b.language = "en")) := by
  constructor
  · have h25 : List.range' 1 25 =
        [1, 2, 3, 4, 5, 6, 7, 8, 9, 10, 11, 12, 13, 14, 15, 16, 17, 18, 19, 20,
         21, 22, 23, 24, 25] := by decide
    unfold mainResults caesar_bruteforce
    rw [h25]
    rfl
  · have hlex := insertionSort_pairwise_lex ScoredResult.score enumLt
      (mainResults c sfr sen) (mainResults_pairwise c sfr sen)
    unfold results_sorted
    refine hlex.imp ?_
    intro a b hab heq
    rcases hab with h | h
    · exact absurd heq (ne_of_gt h)
    · exact h.2

/-- Claim C4 witness: the tie-break statement at a concrete ciphertext and
stopword sets. -/
theorem claim4_witness :
    (results_sorted (codes "ab") [] []).Pairwise (fun a b => a.score = b.score →
      a.key < b.key ∨ (a.key = b.key ∧ a.language = "fr" ∧ b.language = "en")) :=
  (claim4_tiebreak (codes "ab") [] []).2
